import Mathlib

set_option maxRecDepth 4000

/-!
Verification of the tag-tuple completion search and memoizing query layer of
ami-helper (src/ami_helper/ami.py), over a shallow embedding.

The remote AMI service and the diskcache backing store are environment:
remote answers enter as explicit parameters (an adapter function for
find_missing_tag, an Except value for one remote execution, row lists for
get_provenance), and the cache is an explicit association list threaded
through the functions.  Python lists used as stacks pop from the end, so the
worklist is a Lean list popped at its last element, exactly as
stack.pop() / stack.extend do in the source.
-/

/-- The address data type (ami_helper.datamodel.CentralPageHashAddress):
a scope string plus a list of hashtag slots, each either a bound string or
None.  The class itself is absent from src/ (only its fields are visible
through ami.py and the tests: .scope and .hash_tags, constructed as
CentralPageHashAddress(scope=..., hash_tags=[...])). -/
structure CentralPageHashAddress where
  scope : String
  hash_tags : List (Option String)
deriving DecidableEq, Repr

/-- Python truthiness test used by find_hashtag_tuples line 226
(not t): an entry is falsy iff it is None or the empty string. -/
def isFalsyTag : Option String → Bool
  | none => true
  | some s => s == ""

/-- Line 226 of ami.py:
missing_index = [i for i, t in enumerate(current_addr.hash_tags) if not t]. -/
def missing_index_list (a : CentralPageHashAddress) : List Nat :=
  (a.hash_tags.enum.filter (fun p => isFalsyTag p.2)).map Prod.fst

/-- Number of unbound (falsy) slots of an address, as counted by the
engine's missing-index list. -/
def unboundCount (a : CentralPageHashAddress) : Nat :=
  (missing_index_list a).length

/-- The worklist loop of find_hashtag_tuples (ami.py lines 221-237), with
the adapter (find_missing_tag) abstracted as a function, an explicit fuel
bound on loop iterations (none = fuel exhausted before the loop finished),
and a counter of adapter invocations.  stack.pop() pops the last element and
stack.extend appends, so the stack is popped via getLast?/dropLast and
extended by appending on the right. -/
def fht_loop (adapter : CentralPageHashAddress → Nat → List CentralPageHashAddress) :
    Nat → List CentralPageHashAddress → List CentralPageHashAddress →
    Option (List CentralPageHashAddress × Nat)
  | 0, stack, results => if stack.isEmpty then some (results, 0) else none
  | fuel + 1, stack, results =>
    match stack.getLast? with
    | none => some (results, 0)
    | some current_addr =>
      match missing_index_list current_addr with
      | [] => fht_loop adapter fuel stack.dropLast (results ++ [current_addr])
      | i :: _ =>
        (fht_loop adapter fuel (stack.dropLast ++ adapter current_addr i) results).map
          (fun p => (p.1, p.2 + 1))

/-- find_hashtag_tuples (ami.py lines 203-237): run the worklist loop from
the single seed address with empty results. -/
def find_hashtag_tuples (adapter : CentralPageHashAddress → Nat → List CentralPageHashAddress)
    (fuel : Nat) (s_addr : CentralPageHashAddress) :
    Option (List CentralPageHashAddress × Nat) :=
  fht_loop adapter fuel [s_addr] []

/-! ## The memoizing query layer (execute_ami_command, ami.py lines 42-75)

The diskcache store is modelled as an association list from command strings
to results; one remote round trip is an Except value (ok result or raised
error).  The source checks the cache, returns on a hit, otherwise executes
the command (an exception propagates before cache.set runs) and stores the
result.  The third component counts underlying remote executions (0 or 1). -/
def execute_ami_command {α ε : Type} (remote : Except ε α)
    (cache : List (String × α)) (cmd : String) :
    Except ε α × List (String × α) × Nat :=
  match cache.lookup cmd with
  | some r => (Except.ok r, cache, 0)
  | none =>
    match remote with
    | Except.ok r => (Except.ok r, (cmd, r) :: cache, 1)
    | Except.error e => (Except.error e, cache, 1)

/-- A sequence of execute_ami_command calls with the same command string,
threading the cache; remotes lists the answer one remote round trip would
give at each position.  Returns the per-call results, the final cache and
the total number of remote executions. -/
def run_ami_commands {α ε : Type} (cmd : String) :
    List (Except ε α) → List (String × α) →
    List (Except ε α) × List (String × α) × Nat
  | [], cache => ([], cache, 0)
  | remote :: rest, cache =>
    let r := execute_ami_command remote cache cmd
    let tail := run_ami_commands cmd rest r.2.1
    (r.1 :: tail.1, tail.2.1, r.2.2 + tail.2.2)

/-! ## The query built by find_missing_tag (ami.py lines 155-193)

The query is modelled structurally: the base filter fixes the hashtag
dimension PMGL(missing_index+1) (and AMISTATUS = VALID), and the loop at
lines 171-180 appends, for each slot n whose entry is not None, one
correlated IN-subquery clause (alias h(n+1), dimension PMGL(n+1), NAME equal
to the bound value), all AND-ed onto the WHERE clause; pypika renders this
structure deterministically. -/
structure SubqueryClause where
  slot : Nat
  name : String
deriving DecidableEq, Repr

/-- The AND-ed correlated-subquery clauses emitted by the loop at ami.py
lines 171-180: one clause per enumerate index n with hash_tags[n] not None,
in enumeration order.  The clause for slot n renders with alias h(n+1) and
dimension PMGL(n+1). -/
def find_missing_tag_clauses (s_addr : CentralPageHashAddress) : List SubqueryClause :=
  s_addr.hash_tags.enum.filterMap
    (fun p => p.2.map (fun tag => SubqueryClause.mk p.1 tag))

structure MissingTagQuery where
  target_scope : String
  subquery_clauses : List SubqueryClause
deriving DecidableEq, Repr

/-- The structured content of the SQL text built by find_missing_tag for
s_addr and missing_index: the target hashtag dimension of the base WHERE
clause, and the AND-ed bound-slot subquery clauses. -/
def find_missing_tag_query (s_addr : CentralPageHashAddress) (missing_index : Nat) :
    MissingTagQuery :=
  { target_scope := "PMGL" ++ toString (missing_index + 1)
  , subquery_clauses := find_missing_tag_clauses s_addr }

/-! ## get_provenance (ami.py lines 416-445) -/

/-- The inner find_backone of get_provenance: scan the edge rows (modelled
as (source, destination) pairs) and return the source of the first row whose
destination equals name, if any. -/
def find_backone (rows : List (String × String)) (name : String) : Option String :=
  (rows.find? (fun r => r.2 == name)).map Prod.fst

/-- The while-True loop of get_provenance with an explicit fuel bound:
repeatedly follow find_backone from the current name, collecting the sources
in traversal order; none means the fuel ran out before the loop broke. -/
def get_provenance_loop (rows : List (String × String)) :
    Nat → String → Option (List String)
  | 0, _ => none
  | fuel + 1, name =>
    match find_backone rows name with
    | none => some []
    | some src => (get_provenance_loop rows fuel src).map (fun rest => src :: rest)

/-- chain is the provenance chain of name under rows: successive
find_backone links, ending at a name that is no row's destination. -/
def IsProvChain (rows : List (String × String)) : String → List String → Prop
  | name, [] => find_backone rows name = none
  | name, s :: rest => find_backone rows name = some s ∧ IsProvChain rows s rest

/-! ## Auxiliary recursive form of the missing-index list -/

/-- Recursive form of the enumerate-and-filter comprehension at ami.py line
226, carrying the enumeration offset. -/
def missingAux : List (Option String) → Nat → List Nat
  | [], _ => []
  | t :: ts, k => if isFalsyTag t then k :: missingAux ts (k + 1) else missingAux ts (k + 1)

/-- Recursive form of the bound-slot subquery loop at ami.py lines 171-180,
carrying the enumeration offset: one clause per non-None entry, in order. -/
def clausesAux : List (Option String) → Nat → List SubqueryClause
  | [], _ => []
  | none :: ts, k => clausesAux ts (k + 1)
  | some v :: ts, k => SubqueryClause.mk k v :: clausesAux ts (k + 1)

/-- Modelled from the spec: add_hash_to_addr is imported by ami.py from
ami_helper.datamodel but datamodel.py under src/ does not define it.  Per
spec section 4.1/4.3 (withSlotBound), it "returns a new address identical
except slot index is now bound to value", and the adapter "maps each row to
partial.withSlotBound(slotIndex, rowValue)". -/
def add_hash_to_addr (a : CentralPageHashAddress) (index : Nat) (value : String) :
    CentralPageHashAddress :=
  { scope := a.scope, hash_tags := a.hash_tags.set index (some value) }

/-- An adapter with the shape of find_missing_tag (ami.py lines 195-200):
each remote row for the query on (a, i) is turned into a with slot i bound
to the row's hashtag name; values gives the list of names the remote
returns for each query. -/
def mkAdapter (values : CentralPageHashAddress → Nat → List String) :
    CentralPageHashAddress → Nat → List CentralPageHashAddress :=
  fun a i => (values a i).map (add_hash_to_addr a i)

/-- One expansion step of the search engine: bind the first missing slot of
a to one of the candidate values the adapter returns for it. -/
def engineStep (values : CentralPageHashAddress → Nat → List String)
    (a b : CentralPageHashAddress) : Prop :=
  ∃ i v, (missing_index_list a).head? = some i ∧ v ∈ values a i ∧
    b = add_hash_to_addr a i v

/-- b is reachable from a in exactly n engine expansion steps. -/
def ReachN (values : CentralPageHashAddress → Nat → List String) :
    Nat → CentralPageHashAddress → CentralPageHashAddress → Prop
  | 0, a, b => b = a
  | n + 1, a, b => ∃ c, engineStep values a c ∧ ReachN values n c b

/-- b is reachable from a in finitely many engine expansion steps. -/
def Reach (values : CentralPageHashAddress → Nat → List String)
    (a b : CentralPageHashAddress) : Prop :=
  ∃ n, ReachN values n a b

/-- d is a descendant-or-self of a: same scope and arity, and every slot
bound in a carries the same value in d (d was obtained from a by binding
further slots only). -/
def ExtendsAddr (d a : CentralPageHashAddress) : Prop :=
  d.scope = a.scope ∧ d.hash_tags.length = a.hash_tags.length ∧
    ∀ j v, a.hash_tags.get? j = some (some v) → d.hash_tags.get? j = some (some v)

/-- Geometric sum 1 + B + ... + B^(c-1), the worklist call budget for an
address with c unbound slots under branching factor B. -/
def geomSum (B : Nat) : Nat → Nat
  | 0 => 0
  | c + 1 => 1 + B * geomSum B c

/-- Fuel for the termination argument: the size of the expansion tree rooted
at an address, computed to a recursion depth bound. -/
def adapterWeight (adapter : CentralPageHashAddress → Nat → List CentralPageHashAddress) :
    Nat → CentralPageHashAddress → Nat
  | 0, _ => 1
  | k + 1, a =>
    match missing_index_list a with
    | [] => 1
    | i :: _ => 1 + ((adapter a i).map (adapterWeight adapter k)).sum

/-- The tree size of an address at its own unbound-slot count as depth. -/
def addrWeight (adapter : CentralPageHashAddress → Nat → List CentralPageHashAddress)
    (a : CentralPageHashAddress) : Nat :=
  adapterWeight adapter (unboundCount a) a

/-! ## Concrete instances used by witnesses and counterexamples -/

/-- An adapter whose every candidate has exactly one fewer unbound slot than
its argument (used to instantiate the abstract-adapter theorems). -/
def decAdapter : CentralPageHashAddress → Nat → List CentralPageHashAddress :=
  fun a _ =>
    if unboundCount a = 0 then []
    else [{ scope := a.scope, hash_tags := List.replicate (unboundCount a - 1) none }]

def seedAddr : CentralPageHashAddress :=
  { scope := "mc16_13TeV", hash_tags := [some "Top", none, none, none] }

def addrTT : CentralPageHashAddress :=
  { scope := "mc16_13TeV", hash_tags := [some "Top", some "TTbar", none, none] }

def addrBaseline : CentralPageHashAddress :=
  { scope := "mc16_13TeV", hash_tags := [some "Top", some "TTbar", some "Baseline", none] }

def addrWt : CentralPageHashAddress :=
  { scope := "mc16_13TeV", hash_tags := [some "Top", some "TTbar", some "Wt", none] }

def addrBaselineFull : CentralPageHashAddress :=
  { scope := "mc16_13TeV"
  , hash_tags := [some "Top", some "TTbar", some "Baseline", some "PowhegPythia"] }

def addrWtFull : CentralPageHashAddress :=
  { scope := "mc16_13TeV"
  , hash_tags := [some "Top", some "TTbar", some "Wt", some "PowhegPythia"] }

/-- The adapter stub of the literal scenario in spec section 8. -/
def scenarioAdapter : CentralPageHashAddress → Nat → List CentralPageHashAddress :=
  fun a i =>
    if a = seedAddr ∧ i = 1 then [addrTT]
    else if a = addrTT ∧ i = 2 then [addrBaseline, addrWt]
    else if a = addrBaseline ∧ i = 3 then [addrBaselineFull]
    else if a = addrWt ∧ i = 3 then [addrWtFull]
    else []

/-- An adapter that always reports a dead end. -/
def emptyAdapter : CentralPageHashAddress → Nat → List CentralPageHashAddress :=
  fun _ _ => []

/-- All four slots bound (not None), but slot 1 holds the empty string. -/
def emptySlotAddr : CentralPageHashAddress :=
  { scope := "mc16_13TeV"
  , hash_tags := [some "Top", some "", some "Baseline", some "PowhegPythia"] }

def c7seed : CentralPageHashAddress :=
  { scope := "s", hash_tags := [none, none, some "b", some "c"] }

def c7X : CentralPageHashAddress :=
  { scope := "s", hash_tags := [some "x", none, some "b", some "c"] }

def c7Y : CentralPageHashAddress :=
  { scope := "s", hash_tags := [some "y", none, some "b", some "c"] }

def c7D : CentralPageHashAddress :=
  { scope := "s", hash_tags := [some "x", some "m", some "b", some "c"] }

/-- Remote candidate values for the C7 witness run: the seed branches to
c7X and c7Y at slot 0, c7X completes through "m" at slot 1, and c7Y is a
dead end. -/
def c7values : CentralPageHashAddress → Nat → List String :=
  fun a i =>
    if a = c7seed ∧ i = 0 then ["x", "y"]
    else if a = c7X ∧ i = 1 then ["m"]
    else []

/-- Slot 0 is None and slot 1 holds the empty string: the engine expands
slot 0, not the empty-string slot. -/
def c9addr : CentralPageHashAddress :=
  { scope := "mc16_13TeV", hash_tags := [none, some "", some "a", some "b"] }

/-- First falsy slot (slot 0) holds the empty string. -/
def c9waddr : CentralPageHashAddress :=
  { scope := "mc16_13TeV", hash_tags := [some "", some "x", none, none] }

/-- Edge rows (source, destination) forming the acyclic chain
mc23_ds <- parent1 <- grandparent. -/
def provRows : List (String × String) :=
  [("parent1", "mc23_ds"), ("grandparent", "parent1"), ("unrelated", "other")]

/-- A single self-loop edge row: the destination "a" is its own source. -/
def cycleRows : List (String × String) :=
  [("a", "a")]

/-! # Lemmas about the missing-index list -/

theorem filter_enumFrom_missing (l : List (Option String)) :
    ∀ k, ((List.enumFrom k l).filter (fun p => isFalsyTag p.2)).map Prod.fst =
      missingAux l k := by
  induction l with
  | nil => intro k; rfl
  | cons t ts ih =>
    intro k
    simp only [List.enumFrom_cons, List.filter_cons, missingAux]
    by_cases h : isFalsyTag t
    · simp [h, ih]
    · simp [h, ih]

theorem missing_index_list_eq (a : CentralPageHashAddress) :
    missing_index_list a = missingAux a.hash_tags 0 := by
  have he : a.hash_tags.enum = List.enumFrom 0 a.hash_tags := rfl
  rw [missing_index_list, he, filter_enumFrom_missing]

theorem mem_missingAux (l : List (Option String)) :
    ∀ k j, j ∈ missingAux l k ↔
      ∃ i t, l.get? i = some t ∧ isFalsyTag t = true ∧ j = k + i := by
  induction l with
  | nil => intro k j; simp [missingAux]
  | cons t ts ih =>
    intro k j
    simp only [missingAux]
    by_cases h : isFalsyTag t
    · rw [if_pos h]
      simp only [List.mem_cons, ih]
      constructor
      · rintro (rfl | ⟨i, u, hu, hf, rfl⟩)
        · exact ⟨0, t, rfl, h, by omega⟩
        · exact ⟨i + 1, u, hu, hf, by omega⟩
      · rintro ⟨i, u, hu, hf, rfl⟩
        cases i with
        | zero =>
          left; omega
        | succ i' =>
          right; exact ⟨i', u, hu, hf, by omega⟩
    · rw [if_neg h]
      rw [ih]
      constructor
      · rintro ⟨i, u, hu, hf, rfl⟩
        exact ⟨i + 1, u, hu, hf, by omega⟩
      · rintro ⟨i, u, hu, hf, rfl⟩
        cases i with
        | zero =>
          simp only [List.get?_cons_zero] at hu
          cases hu
          exact absurd hf h
        | succ i' =>
          exact ⟨i', u, hu, hf, by omega⟩

theorem head?_missingAux (l : List (Option String)) :
    ∀ k i, (missingAux l k).head? = some i →
      ∃ d t, i = k + d ∧ l.get? d = some t ∧ isFalsyTag t = true ∧
        ∀ j u, j < d → l.get? j = some u → isFalsyTag u = false := by
  induction l with
  | nil => intro k i h; simp [missingAux] at h
  | cons t ts ih =>
    intro k i h
    simp only [missingAux] at h
    by_cases hf : isFalsyTag t
    · rw [if_pos hf] at h
      simp only [List.head?_cons, Option.some.injEq] at h
      refine ⟨0, t, by omega, rfl, hf, ?_⟩
      intro j u hj
      exact absurd hj (Nat.not_lt_zero j)
    · rw [if_neg hf] at h
      obtain ⟨d, u, hi, hget, hfu, hlt⟩ := ih (k + 1) i h
      refine ⟨d + 1, u, by omega, hget, hfu, ?_⟩
      intro j w hj hw
      cases j with
      | zero =>
        simp only [List.get?_cons_zero, Option.some.injEq] at hw
        subst hw
        simpa using hf
      | succ j' =>
        exact hlt j' w (by omega) hw

theorem head?_missingAux_of (l : List (Option String)) :
    ∀ k d t, l.get? d = some t → isFalsyTag t = true →
      (∀ j u, j < d → l.get? j = some u → isFalsyTag u = false) →
      (missingAux l k).head? = some (k + d) := by
  induction l with
  | nil => intro k d t h; simp at h
  | cons t0 ts ih =>
    intro k d t hget hf hlt
    cases d with
    | zero =>
      simp only [List.get?_cons_zero, Option.some.injEq] at hget
      subst hget
      simp [missingAux, hf]
    | succ d' =>
      have h0 : isFalsyTag t0 = false := hlt 0 t0 (Nat.succ_pos d') rfl
      have htail := ih (k + 1) d' t hget hf
        (fun j u hj hu => hlt (j + 1) u (by omega) hu)
      simp only [missingAux, h0, Bool.false_eq_true, if_false]
      rw [htail]
      congr 1
      omega

theorem missingAux_eq_nil (l : List (Option String)) :
    ∀ k, missingAux l k = [] ↔ ∀ t ∈ l, isFalsyTag t = false := by
  induction l with
  | nil => intro k; simp [missingAux]
  | cons t ts ih =>
    intro k
    by_cases h : isFalsyTag t
    · simp only [missingAux, h, if_true, List.mem_cons]
      constructor
      · intro hc; exact absurd hc (List.cons_ne_nil _ _)
      · intro hall
        exact absurd (hall t (Or.inl rfl)) (by simp [h])
    · simp only [missingAux, h, Bool.false_eq_true, if_false, ih, List.mem_cons]
      constructor
      · intro hall u hu
        rcases hu with rfl | hu
        · simpa using h
        · exact hall u hu
      · intro hall u hu
        exact hall u (Or.inr hu)

theorem length_missingAux_replicate (n : Nat) :
    ∀ k, (missingAux (List.replicate n none) k).length = n := by
  induction n with
  | zero => intro k; rfl
  | succ m ih =>
    intro k
    simp only [List.replicate_succ, missingAux, isFalsyTag, if_true, List.length_cons]
    rw [ih (k + 1)]

theorem get?_some_lt {α : Type} {l : List α} {i : Nat} {t : α}
    (h : l.get? i = some t) : i < l.length := by
  by_contra hlt
  rw [List.get?_eq_none.mpr (by omega)] at h
  cases h

theorem head_missing_spec (a : CentralPageHashAddress) (i : Nat)
    (h : (missing_index_list a).head? = some i) :
    i < a.hash_tags.length ∧
      (∃ t, a.hash_tags.get? i = some t ∧ isFalsyTag t = true) ∧
      ∀ j u, j < i → a.hash_tags.get? j = some u → isFalsyTag u = false := by
  rw [missing_index_list_eq] at h
  obtain ⟨d, t, hi, hget, hfu, hlt⟩ := head?_missingAux a.hash_tags 0 i h
  have hd : d = i := by omega
  subst hd
  exact ⟨get?_some_lt hget, ⟨t, hget, hfu⟩, hlt⟩

theorem head_missing_of (a : CentralPageHashAddress) (i : Nat) (t : Option String)
    (h1 : a.hash_tags.get? i = some t) (h2 : isFalsyTag t = true)
    (h3 : ∀ j u, j < i → a.hash_tags.get? j = some u → isFalsyTag u = false) :
    (missing_index_list a).head? = some i := by
  rw [missing_index_list_eq]
  have := head?_missingAux_of a.hash_tags 0 i t h1 h2 h3
  simpa using this

theorem mem_missing_index_list (a : CentralPageHashAddress) (j : Nat) :
    j ∈ missing_index_list a ↔
      ∃ t, a.hash_tags.get? j = some t ∧ isFalsyTag t = true := by
  rw [missing_index_list_eq, mem_missingAux]
  constructor
  · rintro ⟨i, t, hget, hf, rfl⟩
    simp only [Nat.zero_add]
    exact ⟨t, hget, hf⟩
  · rintro ⟨t, hget, hf⟩
    exact ⟨j, t, hget, hf, by omega⟩

theorem missing_index_list_eq_nil (a : CentralPageHashAddress) :
    missing_index_list a = [] ↔ ∀ t ∈ a.hash_tags, isFalsyTag t = false := by
  rw [missing_index_list_eq]
  exact missingAux_eq_nil _ 0

/-! # Basic lemmas about the worklist loop -/

theorem fht_loop_nil
    (adapter : CentralPageHashAddress → Nat → List CentralPageHashAddress)
    (fuel : Nat) (results : List CentralPageHashAddress) :
    fht_loop adapter fuel [] results = some (results, 0) := by
  cases fuel <;> simp [fht_loop]

theorem fht_loop_concat
    (adapter : CentralPageHashAddress → Nat → List CentralPageHashAddress)
    (fuel : Nat) (stack : List CentralPageHashAddress)
    (current : CentralPageHashAddress) (results : List CentralPageHashAddress) :
    fht_loop adapter (fuel + 1) (stack ++ [current]) results =
      match missing_index_list current with
      | [] => fht_loop adapter fuel stack (results ++ [current])
      | i :: _ =>
        (fht_loop adapter fuel (stack ++ adapter current i) results).map
          (fun p => (p.1, p.2 + 1)) := by
  simp [fht_loop, List.getLast?_concat, List.dropLast_concat]

/-! # The provenance loop (C10) -/

theorem get_provenance_loop_sound (rows : List (String × String)) :
    ∀ (chain : List String) (name : String), IsProvChain rows name chain →
      ∀ fuel, chain.length < fuel →
        get_provenance_loop rows fuel name = some chain := by
  intro chain
  induction chain with
  | nil =>
    intro name h fuel hf
    cases fuel with
    | zero => omega
    | succ f =>
      have hb : find_backone rows name = none := h
      simp [get_provenance_loop, hb]
  | cons s rest ih =>
    intro name h fuel hf
    obtain ⟨h1, h2⟩ := h
    cases fuel with
    | zero => simp at hf
    | succ f =>
      simp only [get_provenance_loop, h1]
      rw [ih s h2 f (by simp only [List.length_cons] at hf; omega)]
      rfl

/-- C10: if the edge rows, followed destination-to-source from the starting
name via find_backone, form a finite chain ending at a name that is no
row's destination, then the get_provenance loop terminates (with any fuel
beyond the chain length) and returns exactly the chain's source names in
traversal order; and on a cyclic edge set (cycleRows, a self-loop at "a")
the loop exhausts every fuel bound, so termination is not guaranteed
without the precondition. -/
theorem c10_get_provenance_chain (rows : List (String × String)) (name : String)
    (chain : List String) (h : IsProvChain rows name chain) :
    (∀ fuel, chain.length < fuel → get_provenance_loop rows fuel name = some chain) ∧
    (∀ fuel, get_provenance_loop cycleRows fuel "a" = none) := by
  constructor
  · intro fuel hf
    exact get_provenance_loop_sound rows chain name h fuel hf
  · intro fuel
    induction fuel with
    | zero => rfl
    | succ f ih =>
      have hb : find_backone cycleRows "a" = some "a" := by decide
      simp [get_provenance_loop, hb, ih]

/-- Witness for C10 at the concrete row set provRows. -/
theorem c10_get_provenance_chain_witness :
    get_provenance_loop provRows 3 "mc23_ds" = some ["parent1", "grandparent"] :=
  (c10_get_provenance_chain provRows "mc23_ds" ["parent1", "grandparent"]
    ⟨by decide, by decide, show find_backone provRows "grandparent" = none by decide⟩).1
    3 (by decide)

/-! # The memoizing query layer (C4, C5) -/

theorem execute_hit {α ε : Type} (remote : Except ε α) (cache : List (String × α))
    (cmd : String) (v : α) (h : cache.lookup cmd = some v) :
    execute_ami_command remote cache cmd = (Except.ok v, cache, 0) := by
  simp [execute_ami_command, h]

theorem run_hit {α ε : Type} (cmd : String) (v : α) :
    ∀ (remotes : List (Except ε α)) (cache : List (String × α)),
      cache.lookup cmd = some v →
      run_ami_commands cmd remotes cache =
        (remotes.map (fun _ => Except.ok v), cache, 0) := by
  intro remotes
  induction remotes with
  | nil => intro cache h; rfl
  | cons r rest ih =>
    intro cache h
    simp [run_ami_commands, execute_hit r cache cmd v h, ih cache h]

/-- C4: when the cache misses on cmd and the remote computation raises, the
failed call leaves the cache unchanged (cmd is still absent), the error is
propagated, and a subsequent call with the same cmd performs the remote
call again (one underlying execution, whatever it returns). -/
theorem c4_failure_not_cached {α ε : Type} (cache : List (String × α)) (cmd : String)
    (e : ε) (hmiss : cache.lookup cmd = none) :
    (execute_ami_command (Except.error e) cache cmd).2.1 = cache ∧
    ((execute_ami_command (Except.error e) cache cmd).2.1).lookup cmd = none ∧
    (execute_ami_command (Except.error e) cache cmd).1 = Except.error e ∧
    ∀ remote2 : Except ε α, (execute_ami_command remote2 cache cmd).2.2 = 1 := by
  refine ⟨by simp [execute_ami_command, hmiss], by simp [execute_ami_command, hmiss], by simp [execute_ami_command, hmiss], ?_⟩
  intro remote2
  cases remote2 <;> simp [execute_ami_command, hmiss]

/-- Witness for C4 at the empty cache. -/
theorem c4_failure_not_cached_witness :
    (([] : List (String × Nat)).lookup "cmd" = none) ∧
      (execute_ami_command (Except.error ()) ([] : List (String × Nat)) "cmd").2.1 = [] :=
  ⟨rfl, (c4_failure_not_cached ([] : List (String × Nat)) "cmd" () rfl).1⟩

/-- C5: over one cache lifetime, a sequence of calls with the same command
string that all succeed performs at most one underlying remote execution,
all returned results are identical, and when the cache starts without the
key and at least one call is made, exactly one remote execution happens. -/
theorem c5_cache_idempotence {α ε : Type} (cmd : String) (remotes : List (Except ε α))
    (cache : List (String × α))
    (hok : ∀ r ∈ (run_ami_commands cmd remotes cache).1, ∃ v, r = Except.ok v) :
    (run_ami_commands cmd remotes cache).2.2 ≤ 1 ∧
    (∀ r1 ∈ (run_ami_commands cmd remotes cache).1,
      ∀ r2 ∈ (run_ami_commands cmd remotes cache).1, r1 = r2) ∧
    (cache.lookup cmd = none → remotes ≠ [] →
      (run_ami_commands cmd remotes cache).2.2 = 1) := by
  cases hcl : cache.lookup cmd with
  | some v =>
    rw [run_hit cmd v remotes cache hcl]
    refine ⟨by simp, ?_, ?_⟩
    · intro r1 h1 r2 h2
      simp only [List.mem_map] at h1 h2
      obtain ⟨_, _, rfl⟩ := h1
      obtain ⟨_, _, rfl⟩ := h2
      rfl
    · intro hnone
      exact absurd hnone (by simp)
  | none =>
    cases remotes with
    | nil =>
      refine ⟨by simp [run_ami_commands], by simp [run_ami_commands], fun _ h => absurd rfl h⟩
    | cons r rest =>
      cases r with
      | error e =>
        exfalso
        have hex : execute_ami_command (Except.error e) cache cmd
            = (Except.error e, cache, 1) := by
          simp [execute_ami_command, hcl]
        have hmem : (Except.error e : Except ε α)
            ∈ (run_ami_commands cmd (Except.error e :: rest) cache).1 := by
          simp [run_ami_commands, hex]
        obtain ⟨v, hv⟩ := hok _ hmem
        simp at hv
      | ok v =>
        have hex : execute_ami_command (ε := ε) (Except.ok v) cache cmd
            = (Except.ok v, (cmd, v) :: cache, 1) := by
          simp [execute_ami_command, hcl]
        have hlook : ((cmd, v) :: cache).lookup cmd = some v := by simp
        have hrun : run_ami_commands cmd (Except.ok v :: rest) cache
            = (Except.ok v :: rest.map (fun _ => Except.ok v), (cmd, v) :: cache, 1) := by
          simp [run_ami_commands, hex, run_hit cmd v rest _ hlook]
        rw [hrun]
        refine ⟨by simp, ?_, fun _ _ => by simp⟩
        intro r1 h1 r2 h2
        simp only [List.mem_cons, List.mem_map] at h1 h2
        rcases h1 with rfl | ⟨_, _, rfl⟩ <;> rcases h2 with rfl | ⟨_, _, rfl⟩ <;> rfl

/-- Witness for C5: two successful calls with the same command on an empty
cache perform exactly one remote execution. -/
theorem c5_cache_idempotence_witness :
    (run_ami_commands "cmd" [(Except.ok 5 : Except Unit Nat), Except.ok 6]
      ([] : List (String × Nat))).2.2 = 1 := by
  refine (c5_cache_idempotence "cmd" [Except.ok 5, Except.ok 6] [] ?_).2.2 rfl (by simp)
  intro r hr
  have hv : (run_ami_commands "cmd" [(Except.ok 5 : Except Unit Nat), Except.ok 6]
      ([] : List (String × Nat))).1 = [Except.ok 5, Except.ok 5] := by
    simp [run_ami_commands, execute_ami_command]
  rw [hv] at hr
  simp only [List.mem_cons, List.not_mem_nil, or_false] at hr
  rcases hr with rfl | rfl <;> exact ⟨5, rfl⟩

/-! # Completeness short-circuit (C3) and the literal scenario (C2) -/

/-- C3, amended: for every address none of whose slots is falsy (None or
the empty string) -- the completeness test the engine actually uses -- the
search returns the one-element list holding that address unchanged, with
zero adapter invocations, for every adapter and every positive fuel. -/
theorem c3_complete_short_circuit
    (adapter : CentralPageHashAddress → Nat → List CentralPageHashAddress)
    (a : CentralPageHashAddress) (fuel : Nat) (hfuel : 1 ≤ fuel)
    (hcomplete : ∀ t ∈ a.hash_tags, isFalsyTag t = false) :
    find_hashtag_tuples adapter fuel a = some ([a], 0) := by
  obtain ⟨f, rfl⟩ : ∃ f, fuel = f + 1 := ⟨fuel - 1, by omega⟩
  have hm : missing_index_list a = [] := (missing_index_list_eq_nil a).mpr hcomplete
  rw [find_hashtag_tuples, show ([a] : List CentralPageHashAddress) = [] ++ [a] from rfl,
    fht_loop_concat, hm]
  simpa using fht_loop_nil adapter f [a]

/-- C3 counterexample: emptySlotAddr has all four slots bound (not None),
yet the engine treats its empty-string slot as missing: the run makes one
adapter call and, with the adapter reporting a dead end, returns [] rather
than the one-element list [emptySlotAddr]. -/
theorem c3_counterexample :
    emptySlotAddr.hash_tags.all (fun t => t.isSome) = true ∧
    find_hashtag_tuples emptyAdapter 2 emptySlotAddr = some ([], 1) ∧
    ([] : List CentralPageHashAddress) ≠ [emptySlotAddr] := by
  refine ⟨by decide, by decide, by decide⟩

/-- Witness for the amended C3 at a concrete complete address. -/
theorem c3_complete_short_circuit_witness :
    find_hashtag_tuples emptyAdapter 1 addrBaselineFull = some ([addrBaselineFull], 0) :=
  c3_complete_short_circuit emptyAdapter addrBaselineFull 1 (by decide) (by decide)

/-- C2: with the adapter stubbed to the literal scenario, the search
returns, as a set, exactly the two completed addresses, with exactly two
result entries and exactly 4 adapter calls. -/
theorem c2_literal_scenario :
    ∃ res, find_hashtag_tuples scenarioAdapter 10 seedAddr = some (res, 4) ∧
      res.toFinset = {addrBaselineFull, addrWtFull} ∧ res.length = 2 := by
  refine ⟨[addrWtFull, addrBaselineFull], by decide, by decide, rfl⟩

/-! # Termination of the worklist loop (C1) -/

theorem adapterWeight_pos
    (adapter : CentralPageHashAddress → Nat → List CentralPageHashAddress)
    (k : Nat) (a : CentralPageHashAddress) : 1 ≤ adapterWeight adapter k a := by
  cases k with
  | zero => exact le_refl 1
  | succ m =>
    cases hm : missing_index_list a with
    | nil => simp [adapterWeight, hm]
    | cons i rest =>
      simp only [adapterWeight, hm]
      exact Nat.le_add_right 1 _

theorem adapterWeight_stable
    (adapter : CentralPageHashAddress → Nat → List CentralPageHashAddress)
    (hdec : ∀ a i b, b ∈ adapter a i → unboundCount b < unboundCount a) :
    ∀ c a, unboundCount a = c → ∀ k₁ k₂, c ≤ k₁ → c ≤ k₂ →
      adapterWeight adapter k₁ a = adapterWeight adapter k₂ a := by
  intro c
  induction c using Nat.strong_induction_on with
  | _ c ih =>
    intro a hc k₁ k₂ h1 h2
    have hc' : (missing_index_list a).length = c := hc
    cases k₁ with
    | zero =>
      have hm : missing_index_list a = [] := List.length_eq_zero.mp (by omega)
      cases k₂ with
      | zero => rfl
      | succ m2 => simp [adapterWeight, hm]
    | succ m1 =>
      cases k₂ with
      | zero =>
        have hm : missing_index_list a = [] := List.length_eq_zero.mp (by omega)
        simp [adapterWeight, hm]
      | succ m2 =>
        cases hm : missing_index_list a with
        | nil => simp [adapterWeight, hm]
        | cons i rest =>
          simp only [adapterWeight, hm]
          congr 1
          have hmap : ∀ b ∈ adapter a i,
              adapterWeight adapter m1 b = adapterWeight adapter m2 b := by
            intro b hb
            have hlt : unboundCount b < unboundCount a := hdec a i b hb
            exact ih (unboundCount b) (by omega) b rfl m1 m2 (by omega) (by omega)
          exact congrArg List.sum (List.map_congr_left hmap)

theorem fht_loop_total
    (adapter : CentralPageHashAddress → Nat → List CentralPageHashAddress)
    (hdec : ∀ a i b, b ∈ adapter a i → unboundCount b < unboundCount a) :
    ∀ fuel stack results,
      (stack.map (addrWeight adapter)).sum ≤ fuel →
      (fht_loop adapter fuel stack results).isSome = true := by
  intro fuel
  induction fuel with
  | zero =>
    intro stack results h
    have hnil : stack = [] := by
      cases stack with
      | nil => rfl
      | cons a rest =>
        exfalso
        have hw := adapterWeight_pos adapter (unboundCount a) a
        simp only [List.map_cons, List.sum_cons, addrWeight] at h
        omega
    subst hnil
    rw [fht_loop_nil]
    rfl
  | succ f ih =>
    intro stack results h
    rcases List.eq_nil_or_concat stack with rfl | ⟨s', c, rfl⟩
    · rw [fht_loop_nil]; rfl
    · rw [List.concat_eq_append] at h ⊢
      rw [fht_loop_concat]
      cases hm : missing_index_list c with
      | nil =>
        show (fht_loop adapter f s' (results ++ [c])).isSome = true
        apply ih
        have hw := adapterWeight_pos adapter (unboundCount c) c
        simp only [List.map_append, List.sum_append, List.map_cons, List.sum_cons,
          List.map_nil, List.sum_nil, addrWeight] at h
        omega
      | cons i rest =>
        show ((fht_loop adapter f (s' ++ adapter c i) results).map
          (fun p => (p.1, p.2 + 1))).isSome = true
        rw [Option.isSome_map']
        apply ih
        have hcount : unboundCount c = rest.length + 1 := by
          simp [unboundCount, hm]
        have hWc : addrWeight adapter c
            = 1 + ((adapter c i).map (adapterWeight adapter rest.length)).sum := by
          rw [addrWeight, hcount]
          simp [adapterWeight, hm]
        have hstable : ∀ b ∈ adapter c i,
            adapterWeight adapter rest.length b = addrWeight adapter b := by
          intro b hb
          have hlt := hdec c i b hb
          exact adapterWeight_stable adapter hdec (unboundCount b) b rfl rest.length
            (unboundCount b) (by omega) (le_refl _)
        have hsum : ((adapter c i).map (adapterWeight adapter rest.length)).sum
            = ((adapter c i).map (addrWeight adapter)).sum :=
          congrArg List.sum (List.map_congr_left hstable)
        simp only [List.map_append, List.sum_append, List.map_cons, List.sum_cons,
          List.map_nil, List.sum_nil] at h ⊢
        rw [hWc, hsum] at h
        omega

/-- C1: for every initial address and every adapter whose candidates always
have strictly fewer unbound slots than the expanded address, the worklist
loop terminates: some finite fuel (number of loop iterations) suffices, and
any larger fuel does too. -/
theorem c1_termination
    (adapter : CentralPageHashAddress → Nat → List CentralPageHashAddress)
    (s_addr : CentralPageHashAddress)
    (hdec : ∀ a i b, b ∈ adapter a i → unboundCount b < unboundCount a) :
    ∃ fuel, ∀ g, fuel ≤ g → (find_hashtag_tuples adapter g s_addr).isSome = true := by
  refine ⟨addrWeight adapter s_addr, fun g hg => ?_⟩
  apply fht_loop_total adapter hdec g [s_addr] []
  simpa using hg

theorem unboundCount_replicate_none (s : String) (n : Nat) :
    unboundCount ⟨s, List.replicate n none⟩ = n := by
  rw [unboundCount, missing_index_list_eq]
  exact length_missingAux_replicate n 0

theorem decAdapter_dec_eq :
    ∀ a i b, b ∈ decAdapter a i → unboundCount b + 1 = unboundCount a := by
  intro a i b hb
  simp only [decAdapter] at hb
  by_cases hc : unboundCount a = 0
  · rw [if_pos hc] at hb
    cases hb
  · rw [if_neg hc] at hb
    simp only [List.mem_singleton] at hb
    subst hb
    rw [unboundCount_replicate_none]
    omega

theorem decAdapter_dec :
    ∀ a i b, b ∈ decAdapter a i → unboundCount b < unboundCount a := by
  intro a i b hb
  have := decAdapter_dec_eq a i b hb
  omega

/-- Witness for C1 at the concrete strictly-decreasing adapter. -/
theorem c1_termination_witness :
    ∃ fuel, ∀ g, fuel ≤ g → (find_hashtag_tuples decAdapter g seedAddr).isSome = true :=
  c1_termination decAdapter seedAddr decAdapter_dec

/-! # Adapter-call bound (C8) -/

theorem pow_eq_geomSum (B : Nat) (hB : 1 ≤ B) :
    ∀ c, B ^ c = (B - 1) * geomSum B c + 1 := by
  intro c
  induction c with
  | zero => simp [geomSum]
  | succ m ih =>
    obtain ⟨b, rfl⟩ : ∃ b, B = b + 1 := ⟨B - 1, by omega⟩
    rw [pow_succ, ih]
    simp only [geomSum, Nat.add_sub_cancel]
    ring

theorem div_geomSum (B k : Nat) (hB : 2 ≤ B) :
    (B ^ (k + 1) - 1) / (B - 1) = geomSum B (k + 1) := by
  have h := pow_eq_geomSum B (by omega) (k + 1)
  have h2 : B ^ (k + 1) - 1 = (B - 1) * geomSum B (k + 1) := by omega
  rw [h2]
  exact Nat.mul_div_cancel_left _ (by omega)

theorem geomSum_le_succ (B c : Nat) (hB : 1 ≤ B) :
    geomSum B c ≤ geomSum B (c + 1) := by
  have h : 1 * geomSum B c ≤ B * geomSum B c :=
    Nat.mul_le_mul_right _ hB
  simp only [Nat.one_mul] at h
  simp only [geomSum]
  omega

theorem sum_map_const {γ : Type} (l : List γ) (f : γ → Nat) (k : Nat)
    (h : ∀ b ∈ l, f b = k) : (l.map f).sum = l.length * k := by
  induction l with
  | nil => simp
  | cons x xs ih =>
    simp only [List.map_cons, List.sum_cons, List.length_cons]
    rw [h x (List.mem_cons_self x xs), ih (fun b hb => h b (List.mem_cons_of_mem x hb))]
    ring

theorem fht_loop_calls
    (adapter : CentralPageHashAddress → Nat → List CentralPageHashAddress) (B : Nat)
    (hlen : ∀ a i, (adapter a i).length ≤ B)
    (hdec : ∀ a i b, b ∈ adapter a i → unboundCount b + 1 = unboundCount a) :
    ∀ fuel stack results res n,
      fht_loop adapter fuel stack results = some (res, n) →
      n ≤ (stack.map (fun a => geomSum B (unboundCount a))).sum := by
  intro fuel
  induction fuel with
  | zero =>
    intro stack results res n h
    cases stack with
    | nil =>
      simp only [fht_loop, List.isEmpty_nil, if_true, Option.some.injEq,
        Prod.mk.injEq] at h
      omega
    | cons a rest =>
      simp [fht_loop] at h
  | succ f ih =>
    intro stack results res n h
    rcases List.eq_nil_or_concat stack with rfl | ⟨s', c, rfl⟩
    · rw [fht_loop_nil] at h
      simp only [Option.some.injEq, Prod.mk.injEq] at h
      omega
    · rw [List.concat_eq_append] at h ⊢
      rw [fht_loop_concat] at h
      cases hm : missing_index_list c with
      | nil =>
        rw [hm] at h
        have hrec := ih _ _ _ _ h
        simp only [List.map_append, List.sum_append, List.map_cons, List.sum_cons,
          List.map_nil, List.sum_nil]
        omega
      | cons i rest =>
        rw [hm] at h
        obtain ⟨⟨res', n'⟩, hrec, heq⟩ := Option.map_eq_some'.mp h
        simp only [Prod.mk.injEq] at heq
        obtain ⟨rfl, rfl⟩ := heq
        have hrec' := ih _ _ _ _ hrec
        have hcount : unboundCount c = rest.length + 1 := by
          simp [unboundCount, hm]
        have hconst : ∀ b ∈ adapter c i,
            geomSum B (unboundCount b) = geomSum B rest.length := by
          intro b hb
          have hbc := hdec c i b hb
          have hbl : unboundCount b = rest.length := by omega
          rw [hbl]
        have hsum : ((adapter c i).map (fun a => geomSum B (unboundCount a))).sum
            = (adapter c i).length * geomSum B rest.length :=
          sum_map_const _ _ _ hconst
        have hlenc := hlen c i
        have hmul : (adapter c i).length * geomSum B rest.length
            ≤ B * geomSum B rest.length :=
          Nat.mul_le_mul_right _ hlenc
        simp only [List.map_append, List.sum_append, List.map_cons, List.sum_cons,
          List.map_nil, List.sum_nil] at hrec' ⊢
        rw [hsum] at hrec'
        rw [hcount]
        simp only [geomSum]
        omega

/-- C8: with every adapter call returning at most B candidates (B at least
2), each with exactly one fewer unbound slot, a completed run from an
address with k unbound slots makes at most (B^(k+1) - 1) / (B - 1) adapter
calls. -/
theorem c8_call_bound
    (adapter : CentralPageHashAddress → Nat → List CentralPageHashAddress) (B : Nat)
    (hB : 2 ≤ B)
    (hlen : ∀ a i, (adapter a i).length ≤ B)
    (hdec : ∀ a i b, b ∈ adapter a i → unboundCount b + 1 = unboundCount a)
    (s_addr : CentralPageHashAddress) (fuel : Nat)
    (res : List CentralPageHashAddress) (n : Nat)
    (hrun : find_hashtag_tuples adapter fuel s_addr = some (res, n)) :
    n ≤ (B ^ (unboundCount s_addr + 1) - 1) / (B - 1) := by
  have h1 := fht_loop_calls adapter B hlen hdec fuel [s_addr] [] res n hrun
  simp only [List.map_cons, List.sum_cons, List.map_nil, List.sum_nil] at h1
  rw [div_geomSum B _ hB]
  have h2 := geomSum_le_succ B (unboundCount s_addr) (by omega)
  omega

theorem decAdapter_len : ∀ a i, (decAdapter a i).length ≤ 2 := by
  intro a i
  simp only [decAdapter]
  by_cases hc : unboundCount a = 0
  · rw [if_pos hc]; simp
  · rw [if_neg hc]; simp

/-- Witness for C8: the strictly-decreasing adapter run from the scenario
seed (3 unbound slots) makes 3 calls, below the bound (2^4 - 1) / 1. -/
theorem c8_call_bound_witness :
    find_hashtag_tuples decAdapter 6 seedAddr
        = some ([{ scope := "mc16_13TeV", hash_tags := [] }], 3) ∧
      3 ≤ (2 ^ (unboundCount seedAddr + 1) - 1) / (2 - 1) := by
  have hrun : find_hashtag_tuples decAdapter 6 seedAddr
      = some ([{ scope := "mc16_13TeV", hash_tags := [] }], 3) := by decide
  exact ⟨hrun, c8_call_bound decAdapter 2 (le_refl 2) decAdapter_len decAdapter_dec_eq
    seedAddr 6 _ _ hrun⟩

/-! # The conjunctive query shape (C6) and the interface mismatch (C9) -/

theorem filterMap_enumFrom_clauses (l : List (Option String)) :
    ∀ k, (List.enumFrom k l).filterMap
        (fun p => p.2.map (fun tag => SubqueryClause.mk p.1 tag))
      = clausesAux l k := by
  induction l with
  | nil => intro k; rfl
  | cons t ts ih =>
    intro k
    cases t with
    | none => simp [List.filterMap_cons, clausesAux, ih]
    | some v => simp [List.filterMap_cons, clausesAux, ih]

theorem find_missing_tag_clauses_eq (a : CentralPageHashAddress) :
    find_missing_tag_clauses a = clausesAux a.hash_tags 0 := by
  have he : a.hash_tags.enum = List.enumFrom 0 a.hash_tags := rfl
  rw [find_missing_tag_clauses, he, filterMap_enumFrom_clauses]

theorem mem_clausesAux (l : List (Option String)) :
    ∀ k c, c ∈ clausesAux l k ↔
      ∃ j v, l.get? j = some (some v) ∧ c = SubqueryClause.mk (k + j) v := by
  induction l with
  | nil => intro k c; simp [clausesAux]
  | cons t ts ih =>
    intro k c
    cases t with
    | none =>
      simp only [clausesAux, ih]
      constructor
      · rintro ⟨j, v, hj, rfl⟩
        exact ⟨j + 1, v, hj, by rw [Nat.add_comm j 1, ← Nat.add_assoc]⟩
      · rintro ⟨j, v, hj, rfl⟩
        cases j with
        | zero =>
          simp only [List.get?_cons_zero, Option.some.injEq] at hj
          cases hj
        | succ j' =>
          exact ⟨j', v, hj, by rw [Nat.add_comm j' 1, ← Nat.add_assoc]⟩
    | some w =>
      simp only [clausesAux, List.mem_cons, ih]
      constructor
      · rintro (rfl | ⟨j, v, hj, rfl⟩)
        · exact ⟨0, w, rfl, by rw [Nat.add_zero]⟩
        · exact ⟨j + 1, v, hj, by rw [Nat.add_comm j 1, ← Nat.add_assoc]⟩
      · rintro ⟨j, v, hj, rfl⟩
        cases j with
        | zero =>
          simp only [List.get?_cons_zero, Option.some.injEq] at hj
          cases hj
          left
          rw [Nat.add_zero]
        | succ j' =>
          right
          exact ⟨j', v, hj, by rw [Nat.add_comm j' 1, ← Nat.add_assoc]⟩

theorem clausesAux_lower (l : List (Option String)) :
    ∀ k c, c ∈ clausesAux l k → k ≤ c.slot := by
  intro k c hc
  rw [mem_clausesAux] at hc
  obtain ⟨j, v, _, rfl⟩ := hc
  exact Nat.le_add_right k j

theorem clausesAux_sorted (l : List (Option String)) :
    ∀ k, (clausesAux l k).Pairwise (fun c d => c.slot < d.slot) := by
  induction l with
  | nil => intro k; exact List.Pairwise.nil
  | cons t ts ih =>
    intro k
    cases t with
    | none => exact ih (k + 1)
    | some v =>
      refine List.Pairwise.cons ?_ (ih (k + 1))
      intro d hd
      have := clausesAux_lower ts (k + 1) d hd
      simp only []
      omega

/-- C6: for a partial address whose slot missing_index is unbound (None),
the query built by find_missing_tag is a conjunctive filter: its base
clause targets hashtag dimension PMGL(missing_index+1); the AND-ed subquery
clauses are exactly one per other bound slot, each constraining that slot's
dimension to its bound value; and they are emitted in strictly increasing
slot order, so the rendered query text is a function of the address alone. -/
theorem c6_conjunctive_query (a : CentralPageHashAddress) (missing_index : Nat)
    (hunbound : a.hash_tags.get? missing_index = some none) :
    (find_missing_tag_query a missing_index).target_scope
        = "PMGL" ++ toString (missing_index + 1) ∧
    (∀ c ∈ (find_missing_tag_query a missing_index).subquery_clauses,
      c.slot ≠ missing_index ∧ a.hash_tags.get? c.slot = some (some c.name)) ∧
    (∀ j v, a.hash_tags.get? j = some (some v) →
      SubqueryClause.mk j v ∈ (find_missing_tag_query a missing_index).subquery_clauses) ∧
    (find_missing_tag_query a missing_index).subquery_clauses.Pairwise
      (fun c d => c.slot < d.slot) := by
  have hq : (find_missing_tag_query a missing_index).subquery_clauses
      = clausesAux a.hash_tags 0 := find_missing_tag_clauses_eq a
  refine ⟨rfl, ?_, ?_, ?_⟩
  · intro c hc
    rw [hq, mem_clausesAux] at hc
    obtain ⟨j, v, hj, rfl⟩ := hc
    simp only [Nat.zero_add]
    constructor
    · intro hji
      rw [hji, hunbound] at hj
      simp at hj
    · exact hj
  · intro j v hj
    rw [hq, mem_clausesAux]
    exact ⟨j, v, hj, by rw [Nat.zero_add]⟩
  · rw [hq]
    exact clausesAux_sorted a.hash_tags 0

/-- Witness for C6 at the partial address (Top, TTbar, None, None) with
missing slot 2. -/
theorem c6_conjunctive_query_witness :
    (addrTT.hash_tags.get? 2 = some none) ∧
    (find_missing_tag_query addrTT 2).target_scope = "PMGL" ++ toString (2 + 1) ∧
    (find_missing_tag_query addrTT 2).subquery_clauses.Pairwise
      (fun c d => c.slot < d.slot) :=
  ⟨by decide, (c6_conjunctive_query addrTT 2 (by decide)).1,
    (c6_conjunctive_query addrTT 2 (by decide)).2.2.2⟩

/-- C9 counterexample: c9addr carries the empty string in slot 1, yet the
slot the engine selects for expansion (the head of its missing-index list)
is slot 0, not that empty-string slot. -/
theorem c9_counterexample :
    c9addr.hash_tags.get? 1 = some (some "") ∧
    (missing_index_list c9addr).head? = some 0 ∧ (0 : Nat) ≠ 1 :=
  ⟨by decide, by decide, by decide⟩

/-- C9, amended: the engine and adapter use different unbound tests at
their shared interface: a slot is in the engine's missing-index list iff
its entry is falsy (None or the empty string), while find_missing_tag emits
a bound-slot constraint exactly for entries that are not None (empty
strings included); consequently, for every address whose FIRST falsy slot
holds the empty string, the engine selects that slot for expansion while
the query built by find_missing_tag simultaneously constrains that same
slot's NAME to the empty string. -/
theorem c9_interface_mismatch :
    (∀ (a : CentralPageHashAddress) (j : Nat) (t : Option String),
      a.hash_tags.get? j = some t →
      (j ∈ missing_index_list a ↔ isFalsyTag t = true)) ∧
    (∀ (a : CentralPageHashAddress) (j : Nat) (v : String),
      a.hash_tags.get? j = some (some v) →
      SubqueryClause.mk j v ∈ find_missing_tag_clauses a) ∧
    (∀ (a : CentralPageHashAddress) (c : SubqueryClause),
      c ∈ find_missing_tag_clauses a →
      a.hash_tags.get? c.slot = some (some c.name)) ∧
    (∀ (a : CentralPageHashAddress) (i : Nat),
      (missing_index_list a).head? = some i →
      a.hash_tags.get? i = some (some "") →
      SubqueryClause.mk i "" ∈ find_missing_tag_clauses a) := by
  have hmem : ∀ (a : CentralPageHashAddress) (j : Nat) (v : String),
      a.hash_tags.get? j = some (some v) →
      SubqueryClause.mk j v ∈ find_missing_tag_clauses a := by
    intro a j v hj
    rw [find_missing_tag_clauses_eq, mem_clausesAux]
    exact ⟨j, v, hj, by rw [Nat.zero_add]⟩
  refine ⟨?_, hmem, ?_, ?_⟩
  · intro a j t ht
    rw [mem_missing_index_list]
    constructor
    · rintro ⟨u, hu, hf⟩
      rw [ht] at hu
      cases hu
      exact hf
    · intro hf
      exact ⟨t, ht, hf⟩
  · intro a c hc
    rw [find_missing_tag_clauses_eq, mem_clausesAux] at hc
    obtain ⟨j, v, hj, rfl⟩ := hc
    simpa using hj
  · intro a i _ hi
    exact hmem a i "" hi

/-- Witness for C9 at the address whose first falsy slot holds the empty
string: the engine selects slot 0 and the query constrains slot 0 to "". -/
theorem c9_interface_mismatch_witness :
    (missing_index_list c9waddr).head? = some 0 ∧
      SubqueryClause.mk 0 "" ∈ find_missing_tag_clauses c9waddr :=
  ⟨by decide, c9_interface_mismatch.2.2.2 c9waddr 0 (by decide) (by decide)⟩

/-! # Pruning correctness (C7)

The adapter is taken with the shape of find_missing_tag (rows mapped to
the popped address with the queried slot bound, as the spec describes
add_hash_to_addr), and the run is related to the engine's expansion tree:
every result is reachable from the seed and complete; a complete extension
of a pruned address would have to be reachable through the pruned address
itself, which has no candidates. -/

theorem isFalsyTag_some_ne (v : String) (h : v ≠ "") : isFalsyTag (some v) = false := by
  simp [isFalsyTag, h]

theorem complete_nonfalsy (D : CentralPageHashAddress) (h : missing_index_list D = [])
    (j : Nat) (t : Option String) (ht : D.hash_tags.get? j = some t) :
    isFalsyTag t = false :=
  (missing_index_list_eq_nil D).mp h t (List.get?_mem ht)

theorem add_hash_get?_eq (a : CentralPageHashAddress) (i : Nat) (v : String)
    (h : i < a.hash_tags.length) :
    (add_hash_to_addr a i v).hash_tags.get? i = some (some v) :=
  List.get?_set_eq_of_lt _ h

theorem add_hash_get?_ne (a : CentralPageHashAddress) (i j : Nat) (v : String)
    (h : i ≠ j) :
    (add_hash_to_addr a i v).hash_tags.get? j = a.hash_tags.get? j :=
  List.get?_set_ne _ _ h

theorem add_hash_add_hash (a : CentralPageHashAddress) (i : Nat) (v w : String) :
    add_hash_to_addr (add_hash_to_addr a i v) i w = add_hash_to_addr a i w := by
  simp [add_hash_to_addr, List.set_set]

theorem head_missing_add_hash_falsy (a : CentralPageHashAddress) (i : Nat)
    (hlen : i < a.hash_tags.length)
    (hlt : ∀ j t, j < i → a.hash_tags.get? j = some t → isFalsyTag t = false) :
    (missing_index_list (add_hash_to_addr a i "")).head? = some i := by
  apply head_missing_of _ i (some "")
  · exact add_hash_get?_eq a i "" hlen
  · decide
  · intro j u hj hu
    rw [add_hash_get?_ne a i j "" (by omega)] at hu
    exact hlt j u hj hu

theorem reachN_persist (values : CentralPageHashAddress → Nat → List String) :
    ∀ (n : Nat) (x y : CentralPageHashAddress), ReachN values n x y →
      ∀ (j : Nat) (v : String), v ≠ "" →
        x.hash_tags.get? j = some (some v) → y.hash_tags.get? j = some (some v) := by
  intro n
  induction n with
  | zero =>
    intro x y hxy j v hv hx
    have hy : y = x := hxy
    rw [hy]
    exact hx
  | succ n' ih =>
    intro x y hxy j v hv hx
    obtain ⟨c, ⟨i, w, hhead, hw, rfl⟩, hrest⟩ := hxy
    by_cases hij : i = j
    · subst hij
      obtain ⟨_, ⟨t, hxt, hft⟩, _⟩ := head_missing_spec x i hhead
      rw [hx] at hxt
      injection hxt with hxt'
      subst hxt'
      rw [isFalsyTag_some_ne v hv] at hft
      simp at hft
    · have hc : (add_hash_to_addr x i w).hash_tags.get? j = some (some v) := by
        rw [add_hash_get?_ne x i j w hij]
        exact hx
      exact ih _ _ hrest j v hv hc

theorem reachN_some_slot (values : CentralPageHashAddress → Nat → List String) :
    ∀ (n : Nat) (x y : CentralPageHashAddress), ReachN values n x y →
      ∀ (j : Nat) (s : String), x.hash_tags.get? j = some (some s) →
        ∃ t, y.hash_tags.get? j = some (some t) := by
  intro n
  induction n with
  | zero =>
    intro x y hxy j s hx
    have hy : y = x := hxy
    rw [hy]
    exact ⟨s, hx⟩
  | succ n' ih =>
    intro x y hxy j s hx
    obtain ⟨c, ⟨i, w, hhead, hw, rfl⟩, hrest⟩ := hxy
    by_cases hij : i = j
    · subst hij
      obtain ⟨hlen, _, _⟩ := head_missing_spec x i hhead
      exact ih _ _ hrest i w (add_hash_get?_eq x i w hlen)
    · have hc : (add_hash_to_addr x i w).hash_tags.get? j = some (some s) := by
        rw [add_hash_get?_ne x i j w hij]
        exact hx
      exact ih _ _ hrest j s hc

theorem reachN_skip_empty (values : CentralPageHashAddress → Nat → List String) :
    ∀ (n : Nat) (a : CentralPageHashAddress) (i : Nat) (u : String)
      (x : CentralPageHashAddress),
      i < a.hash_tags.length →
      (∀ j t, j < i → a.hash_tags.get? j = some t → isFalsyTag t = false) →
      ReachN values n (add_hash_to_addr a i "") x →
      x.hash_tags.get? i = some (some u) → u ≠ "" →
      ∃ m, m < n ∧ ReachN values m (add_hash_to_addr a i u) x := by
  intro n
  induction n with
  | zero =>
    intro a i u x hlen hlt hreach hx hu
    have hxe : x = add_hash_to_addr a i "" := hreach
    rw [hxe, add_hash_get?_eq a i "" hlen] at hx
    injection hx with hx'
    injection hx' with hx''
    exact absurd hx''.symm hu
  | succ n' ih =>
    intro a i u x hlen hlt hreach hx hu
    obtain ⟨c, ⟨i₂, w, hhead, hw, rfl⟩, hrest⟩ := hreach
    have hh := head_missing_add_hash_falsy a i hlen hlt
    rw [hh] at hhead
    injection hhead with hi₂
    subst hi₂
    rw [add_hash_add_hash] at hrest
    by_cases hwu : w = u
    · subst hwu
      exact ⟨n', by omega, hrest⟩
    · by_cases hw0 : w = ""
      · subst hw0
        obtain ⟨m, hm, hr⟩ := ih a i u x hlen hlt hrest hx hu
        exact ⟨m, by omega, hr⟩
      · exfalso
        have hcw : (add_hash_to_addr a i w).hash_tags.get? i = some (some w) :=
          add_hash_get?_eq a i w hlen
        have := reachN_persist values n' _ x hrest i w hw0 hcw
        rw [hx] at this
        injection this with h1
        injection h1 with h2
        exact hwu h2.symm

theorem reach_extends_through (values : CentralPageHashAddress → Nat → List String) :
    ∀ (m : Nat) (a current D : CentralPageHashAddress),
      ReachN values m a current → Reach values a D →
      missing_index_list D = [] → ExtendsAddr D current →
      Reach values current D := by
  intro m
  induction m using Nat.strong_induction_on with
  | _ m IH =>
    intro a current D hac haD hDc hExt
    cases m with
    | zero =>
      have h : current = a := hac
      subst h
      exact haD
    | succ m' =>
      obtain ⟨b, ⟨i, v, hhead, hv, rfl⟩, hbc⟩ := hac
      obtain ⟨n, hnD⟩ := haD
      cases n with
      | zero =>
        exfalso
        have hDa : D = a := hnD
        subst hDa
        rw [hDc] at hhead
        simp at hhead
      | succ n' =>
        obtain ⟨b', ⟨i', v', hhead', hv', rfl⟩, hb'D⟩ := hnD
        have hi : i' = i := by
          rw [hhead] at hhead'
          exact (Option.some.inj hhead').symm
        rw [hi] at hv' hb'D
        obtain ⟨hlen, ⟨t0, hat0, hft0⟩, hlt⟩ := head_missing_spec a i hhead
        by_cases hvv : v = v'
        · subst hvv
          exact IH m' (by omega) _ current D hbc ⟨n', hb'D⟩ hDc hExt
        · by_cases hv0 : v = ""
          · subst hv0
            have hv'0 : v' ≠ "" := fun h => hvv h.symm
            have hb'i : (add_hash_to_addr a i v').hash_tags.get? i = some (some v') :=
              add_hash_get?_eq a i v' hlen
            have hDi : D.hash_tags.get? i = some (some v') :=
              reachN_persist values n' _ D hb'D i v' hv'0 hb'i
            have hbi : (add_hash_to_addr a i "").hash_tags.get? i = some (some "") :=
              add_hash_get?_eq a i "" hlen
            obtain ⟨u, hcuri⟩ := reachN_some_slot values m' _ current hbc i "" hbi
            by_cases hu0 : u = ""
            · exfalso
              subst hu0
              have hD0 := hExt.2.2 i "" hcuri
              rw [hDi] at hD0
              injection hD0 with h1
              injection h1 with h2
              exact hv'0 h2
            · have hDu := hExt.2.2 i u hcuri
              rw [hDi] at hDu
              injection hDu with h1
              injection h1 with h2
              subst h2
              obtain ⟨m'', hm'', hr⟩ := reachN_skip_empty values m' a i v' current hlen
                (fun j t hj ht => hlt j t hj ht) hbc hcuri hu0
              exact IH m'' (by omega) _ current D hr ⟨n', hb'D⟩ hDc hExt
          · by_cases hv'0 : v' = ""
            · subst hv'0
              have hbi : (add_hash_to_addr a i v).hash_tags.get? i = some (some v) :=
                add_hash_get?_eq a i v hlen
              have hcuri : current.hash_tags.get? i = some (some v) :=
                reachN_persist values m' _ current hbc i v hv0 hbi
              have hDv := hExt.2.2 i v hcuri
              obtain ⟨k, hk, hreachD⟩ := reachN_skip_empty values n' a i v D hlen
                (fun j t hj ht => hlt j t hj ht) hb'D hDv hv0
              exact IH m' (by omega) _ current D hbc ⟨k, hreachD⟩ hDc hExt
            · exfalso
              have hbi : (add_hash_to_addr a i v).hash_tags.get? i = some (some v) :=
                add_hash_get?_eq a i v hlen
              have hcuri : current.hash_tags.get? i = some (some v) :=
                reachN_persist values m' _ current hbc i v hv0 hbi
              have hb'i : (add_hash_to_addr a i v').hash_tags.get? i = some (some v') :=
                add_hash_get?_eq a i v' hlen
              have hDi : D.hash_tags.get? i = some (some v') :=
                reachN_persist values n' _ D hb'D i v' hv'0 hb'i
              have hDv := hExt.2.2 i v hcuri
              rw [hDi] at hDv
              injection hDv with h1
              injection h1 with h2
              exact hvv h2.symm

theorem fht_loop_results (values : CentralPageHashAddress → Nat → List String) :
    ∀ (fuel : Nat) (stack results res : List CentralPageHashAddress) (n : Nat),
      fht_loop (mkAdapter values) fuel stack results = some (res, n) →
      ∀ D ∈ res, D ∈ results ∨
        ∃ a ∈ stack, Reach values a D ∧ missing_index_list D = [] := by
  intro fuel
  induction fuel with
  | zero =>
    intro stack results res n h D hD
    cases stack with
    | nil =>
      simp only [fht_loop, List.isEmpty_nil, if_true, Option.some.injEq,
        Prod.mk.injEq] at h
      left
      rw [h.1]
      exact hD
    | cons a rest => simp [fht_loop] at h
  | succ f ih =>
    intro stack results res n h D hD
    rcases List.eq_nil_or_concat stack with rfl | ⟨s', c, rfl⟩
    · rw [fht_loop_nil] at h
      simp only [Option.some.injEq, Prod.mk.injEq] at h
      left
      rw [h.1]
      exact hD
    · rw [List.concat_eq_append] at h ⊢
      rw [fht_loop_concat] at h
      cases hm : missing_index_list c with
      | nil =>
        rw [hm] at h
        rcases ih _ _ _ _ h D hD with hres | ⟨a, ha, hreach, hcomp⟩
        · rcases List.mem_append.mp hres with h1 | h2
          · left
            exact h1
          · right
            simp only [List.mem_singleton] at h2
            exact ⟨c, List.mem_append_right _ (List.mem_singleton.mpr rfl), ⟨0, h2⟩,
              by rw [h2]; exact hm⟩
        · right
          exact ⟨a, List.mem_append_left _ ha, hreach, hcomp⟩
      | cons i rest =>
        rw [hm] at h
        obtain ⟨⟨res', n'⟩, hrec, heq⟩ := Option.map_eq_some'.mp h
        simp only [Prod.mk.injEq] at heq
        obtain ⟨rfl, rfl⟩ := heq
        rcases ih _ _ _ _ hrec D hD with hres | ⟨a, ha, hreach, hcomp⟩
        · left
          exact hres
        · rcases List.mem_append.mp ha with h1 | h2
          · right
            exact ⟨a, List.mem_append_left _ h1, hreach, hcomp⟩
          · right
            obtain ⟨w, hw, rfl⟩ := List.mem_map.mp h2
            obtain ⟨k, hk⟩ := hreach
            refine ⟨c, List.mem_append_right _ (List.mem_singleton.mpr rfl), ⟨k + 1, ?_⟩, hcomp⟩
            exact ⟨add_hash_to_addr c i w, ⟨i, w, by simp [hm], hw, rfl⟩, hk⟩

/-- C7: model the adapter with the row-to-address mapping of
find_missing_tag (each remote row binds the queried slot of the popped
address, per the spec's withSlotBound, since add_hash_to_addr itself is
absent from src/).  If a reachable (hence, in some run, popped) partial
address current gets an empty candidate list for its first missing slot,
then no completed run from the seed has current, or any address extending
current's bound slots, among its results. -/
theorem c7_pruning (values : CentralPageHashAddress → Nat → List String)
    (seed current : CentralPageHashAddress) (i0 : Nat)
    (fuel n : Nat) (res : List CentralPageHashAddress)
    (hreach : Reach values seed current)
    (hi0 : (missing_index_list current).head? = some i0)
    (hempty : values current i0 = [])
    (hrun : find_hashtag_tuples (mkAdapter values) fuel seed = some (res, n)) :
    ∀ D ∈ res, ¬ ExtendsAddr D current := by
  intro D hD hExt
  rcases fht_loop_results values fuel [seed] [] res n hrun D hD with h0 | ⟨a, ha, hreachD, hcomp⟩
  · exact absurd h0 (List.not_mem_nil D)
  · simp only [List.mem_singleton] at ha
    subst ha
    obtain ⟨m, hm⟩ := hreach
    obtain ⟨k, hk⟩ := reach_extends_through values m a current D hm hreachD hcomp hExt
    cases k with
    | zero =>
      have hDc : D = current := hk
      subst hDc
      rw [hcomp] at hi0
      simp at hi0
    | succ k' =>
      obtain ⟨c, ⟨i, w, hhead, hw, rfl⟩, _⟩ := hk
      rw [hi0] at hhead
      injection hhead with hi
      subst hi
      rw [hempty] at hw
      exact absurd hw (List.not_mem_nil w)

/-- Witness for C7: in the concrete run, c7Y is reached and pruned, and the
only result c7D does not extend c7Y. -/
theorem c7_pruning_witness :
    find_hashtag_tuples (mkAdapter c7values) 6 c7seed = some ([c7D], 3) ∧
      ¬ ExtendsAddr c7D c7Y := by
  have hrun : find_hashtag_tuples (mkAdapter c7values) 6 c7seed = some ([c7D], 3) := by
    decide
  refine ⟨hrun, ?_⟩
  exact c7_pruning c7values c7seed c7Y 1 6 3 [c7D]
    ⟨1, c7Y, ⟨0, "y", by decide, by decide, by decide⟩, rfl⟩
    (by decide) (by decide) hrun c7D (List.mem_singleton.mpr rfl)
